import Mathlib

/-!
Verification development for the data-versioning service.

The definitions below are shallow embeddings of the Python source:

* `app/api/endpoints/versions.py` — the replay fold of `get_specific_version`
  (and the identical fold in `get_latest_version`), and the version-number
  assignment of `create_new_version`;
* `app/utils/enhanced_operations.py` — `bulk_insert`, `search_versions`,
  `get_version_with_cache`;
* `app/utils/dataset_utils.py` — `validate_schema_compatibility`.

Records are Python dicts mapping field names to values; payload values in the
examples under test are integers, so field values are embedded as `Int`.
A dict is an association list whose keys are unique (JSON-decoded dicts never
hold a duplicate key); operations are written to agree with CPython dict
semantics on such lists.
-/

/-- A record: a Python dict from field name to (integer) value. -/
abbrev Record := List (String × Int)

/-- `r[k]` as a total function: the first binding of `k`, if any
(on unique-key lists this is the dict lookup; `none` models `KeyError`). -/
def getField (r : Record) (k : String) : Option Int :=
  match r with
  | [] => none
  | kv :: rest => if kv.1 = k then some kv.2 else getField rest k

/-- `r[k] = v` on a dict: replace the value at the first binding of `k`
keeping its position (CPython keeps insertion order), else append `(k, v)`. -/
def setField (r : Record) (k : String) (v : Int) : Record :=
  match r with
  | [] => [(k, v)]
  | kv :: rest => if kv.1 = k then (k, v) :: rest else kv :: setField rest k v

/-- `r.update(s)`: fold the bindings of `s` into `r` (CPython
`dict.update`). -/
def pyUpdate (r s : Record) : Record :=
  s.foldl (fun acc kv => setField acc kv.1 kv.2) r

/-- CPython dict equality `r == s`: the two lookups agree on every key of
either dict. -/
def pyEqb (r s : Record) : Bool :=
  r.all (fun kv => getField s kv.1 == getField r kv.1) &&
    s.all (fun kv => getField r kv.1 == getField s kv.1)

/-- A change-log payload: the JSON object stored in
`ChangeLog.changed_data`, mapping keys such as `"initial_data"`, `"added"`,
`"modified"`, `"deleted"`, `"changes"`, `"batch_data"` to record lists. -/
abbrev Payload := List (String × List Record)

/-- First binding of `k` in an association list (dict lookup). -/
def alistFind {α : Type} (k : String) (p : List (String × α)) : Option α :=
  match p with
  | [] => none
  | kv :: rest => if kv.1 = k then some kv.2 else alistFind k rest

/-- `changed_data.get(k, [])`. -/
def payloadGet (p : Payload) (k : String) : List Record :=
  (alistFind k p).getD []

/-- `k in changed_data`. -/
def payloadHas (p : Payload) (k : String) : Bool :=
  (alistFind k p).isSome

/-- One row of `change_log`: its `operation_type` and its `changed_data`
payload. -/
structure ChangeEntry where
  op : String
  data : Payload
deriving Repr, DecidableEq

/-- The inner loop of the UPDATE branch
(`versions.py:209-214`): scan `complete_data` for the first record whose
`"id"` equals the partial record's `"id"`, merge via `dict.update`, and stop.
`none` models the `KeyError` raised when a scanned record (or, once a record
is scanned, the partial record) has no `"id"` key; when the accumulator is
exhausted without a match the partial record is dropped. -/
def updateScan (acc : List Record) (m : Record) : Option (List Record) :=
  match acc with
  | [] => some []
  | r :: rest =>
    match getField r "id" with
    | none => none
    | some idr =>
      match getField m "id" with
      | none => none
      | some idm =>
        if idr = idm then some (pyUpdate r m :: rest)
        else (updateScan rest m).map (r :: ·)

/-- One step of the replay fold of `get_specific_version`
(`versions.py:196-221`): dispatch on `operation_type`; unknown operation
types leave the accumulator unchanged; `none` propagates a `KeyError` from
the UPDATE branch. -/
def applyChange (acc : List Record) (e : ChangeEntry) : Option (List Record) :=
  if e.op = "INSERT" then
    if payloadHas e.data "initial_data" then
      some (acc ++ payloadGet e.data "initial_data")
    else
      some (acc ++ payloadGet e.data "added")
  else if e.op = "UPDATE" then
    (payloadGet e.data "modified").foldlM updateScan acc
  else if e.op = "DELETE" then
    some (acc.filter (fun r => !(payloadGet e.data "deleted").any (pyEqb r)))
  else
    some acc

/-- The replay fold: start from the empty accumulator and apply the ordered
change-log entries (`complete_data` of `get_specific_version`). -/
def replay (es : List ChangeEntry) : Option (List Record) :=
  es.foldlM applyChange []

/-- Modelled from the spec's wording of the UPDATE rule: find the first
accumulator record whose `"id"` equals the partial record's `"id"`, merge the
partial record into it, and leave the rest unchanged; no match leaves the
accumulator unchanged. Compared against `updateScan`, the embedding of the
source loop. -/
def specMergeOne (acc : List Record) (m : Record) : List Record :=
  match acc with
  | [] => []
  | r :: rest =>
    if getField r "id" = getField m "id" then pyUpdate r m :: rest
    else r :: specMergeOne rest m

/-!
### Ingestion batcher — `bulk_insert` (`enhanced_operations.py:37-68`)

`bulk_insert` walks `range(0, len(df), batch_size)`, adds one change-log
entry per chunk with payload `{"batch_data": batch}`, and commits whenever
`i % (batch_size * 5) == 0` (which fires at `i = 0`) plus once after the
loop; on an exception it rolls back the *uncommitted* adds and raises a 500.
The embedding assumes the input records share a uniform key set, so the
`pandas.DataFrame` round-trip (`pd.DataFrame(data)`;
`batch.to_dict('records')`) is the identity on each chunk. A failure is
modelled as an exception thrown when chunk `i` is about to be processed
(`failAt = some i`).
-/

/-- Python `range(0, n, b)` for `b ≥ 1`: the chunk start offsets. -/
def chunkStarts (n b : ℕ) : List ℕ := (List.range ((n + b - 1) / b)).map (· * b)

/-- The chunk `df[i : i + b]` as records. -/
def chunkAt (records : List Record) (b i : ℕ) : List Record :=
  (records.drop i).take b

/-- The change-log payload of one batch: `{"batch_data": batch_data}`. -/
def batchPayload (records : List Record) (b i : ℕ) : Payload :=
  [("batch_data", chunkAt records b i)]

/-- Transactional state of the bulk insert: entries already committed,
entries added but not yet committed, and the running `total_records`. -/
structure BulkState where
  committed : List Payload
  pending : List Payload
  total : ℕ
deriving Repr, DecidableEq

/-- `db.commit()`: persist the pending adds. -/
def flushState (s : BulkState) : BulkState :=
  ⟨s.committed ++ s.pending, [], s.total⟩

/-- One loop iteration of `bulk_insert` on chunk start `i`: add the batch's
change-log entry, bump `total_records`, and commit when
`i % (batch_size * 5) == 0`. -/
def bulkStepState (records : List Record) (b : ℕ) (s : BulkState) (i : ℕ) :
    BulkState :=
  let s' : BulkState :=
    ⟨s.committed, s.pending ++ [batchPayload records b i],
      s.total + (chunkAt records b i).length⟩
  if i % (b * 5) = 0 then flushState s' else s'

/-- Observable outcome of a bulk insert: the change-log entries left
committed in the store, and `some total` on success
(`{"records_processed": total}`) or `none` when the `except` branch rolled
back and raised `HTTPException(500)`. -/
structure BulkResult where
  committed : List Payload
  outcome : Option ℕ
deriving Repr, DecidableEq

/-- The batch loop of `bulk_insert`, with a failure injected at chunk start
`failAt`: the exception aborts the loop, `db.rollback()` discards the
pending (uncommitted) adds, and the committed entries remain. -/
def bulkGo (records : List Record) (b : ℕ) (failAt : Option ℕ) :
    List ℕ → BulkState → BulkResult
  | [], s => ⟨s.committed ++ s.pending, some s.total⟩
  | i :: rest, s =>
    if failAt = some i then ⟨s.committed, none⟩
    else bulkGo records b failAt rest (bulkStepState records b s i)

/-- `bulk_insert(db, dataset_id, data, batch_size)` with an optional
injected failure. -/
def bulkInsert (records : List Record) (b : ℕ) (failAt : Option ℕ) :
    BulkResult :=
  bulkGo records b failAt (chunkStarts records.length b) ⟨[], [], 0⟩

/-!
### Version rows, search, and the cached read path
(`enhanced_operations.py:70-147`)

A `VersionRow` models one row of `versions` for a single dataset together
with its related `schema_versions` and `change_log` rows; UUID identity
columns are omitted. The `db` lists below are ordered by `created_at`
ascending, matching the `ORDER BY created_at ASC` of the queries.
-/

/-- One row of `schema_versions`: the fields read by search, formatting and
the compatibility checker. -/
structure SchemaCol where
  column_name : String
  data_type : String
  is_nullable : Bool
deriving Repr, DecidableEq

/-- One row of `versions` with its related rows, for one dataset. -/
structure VersionRow where
  version_number : String
  created_at : ℕ
  change_type : String
  schema_versions : List SchemaCol
  changes : List ChangeEntry
deriving Repr, DecidableEq

/-- The `date_range` filter of `search_versions`: SQL `BETWEEN`, inclusive
on both ends; absent filter keeps the query unchanged. -/
def searchDate (db : List VersionRow) (dateRange : Option (ℕ × ℕ)) :
    List VersionRow :=
  match dateRange with
  | none => db
  | some dr => db.filter (fun v => dr.1 ≤ v.created_at && v.created_at ≤ dr.2)

/-- The `change_type` filter of `search_versions`: equality. -/
def searchType (q : List VersionRow) (changeType : Option String) :
    List VersionRow :=
  match changeType with
  | none => q
  | some ct => q.filter (fun v => v.change_type == ct)

/-- The `schema_changes` filter of `search_versions`: a join against
`schema_versions` with `column_name IN (...)`, which keeps a version once
per schema row whose column name is in the given list. -/
def searchCols (q : List VersionRow) (schemaChanges : Option (List String)) :
    List VersionRow :=
  match schemaChanges with
  | none => q
  | some cols => q.flatMap (fun v =>
      (v.schema_versions.filter (fun sc => cols.contains sc.column_name)).map
        (fun _ => v))

/-- `search_versions` (`enhanced_operations.py:70-97`): the three optional
filters applied in the order the source applies them. -/
def searchVersions (db : List VersionRow) (dateRange : Option (ℕ × ℕ))
    (changeType : Option String) (schemaChanges : Option (List String)) :
    List VersionRow :=
  searchCols (searchType (searchDate db dateRange) changeType) schemaChanges

/-- `_format_version_result` (`enhanced_operations.py:99-114`): the version
summary dict (UUID and ISO-format string details omitted). -/
structure FormattedVersion where
  version_number : String
  created_at : ℕ
  change_type : String
  schema_versions : List SchemaCol
deriving Repr, DecidableEq

def formatVersionResult (v : VersionRow) : FormattedVersion :=
  ⟨v.version_number, v.created_at, v.change_type, v.schema_versions⟩

/-- The value built and cached by `get_version_with_cache`
(`enhanced_operations.py:140-144`): `version_info` plus `data`, the list of
raw `changed_data` payloads of the requested version's own change-log
entries. -/
structure CachedVersionResult where
  version_info : FormattedVersion
  data : List Payload
deriving Repr, DecidableEq

/-- `get_version_with_cache` (`enhanced_operations.py:117-147`): serve the
cached value when present; otherwise find the version by number and return
its raw change payloads (no replay), caching the result. `none` models the
404 when the version is absent. -/
def getVersionWithCache (cache : Option CachedVersionResult)
    (db : List VersionRow) (version_number : String) :
    Option CachedVersionResult :=
  match cache with
  | some cached => some cached
  | none =>
    match db.find? (fun v => v.version_number == version_number) with
    | none => none
    | some v => some ⟨formatVersionResult v, v.changes.map (fun c => c.data)⟩

/-- The materialization computed by the direct read path
`get_specific_version` (`versions.py:146-235`): find the version by number,
collect the change-log entries of all versions created at or before it (the
`db` list is ordered by `created_at` ascending, as the query orders), and
replay. `none` models the 404 or a replay `KeyError`. -/
def getVersionMaterialized (db : List VersionRow) (version_number : String) :
    Option (List Record) :=
  match db.find? (fun v => v.version_number == version_number) with
  | none => none
  | some v =>
    replay ((db.filter (fun w => w.created_at ≤ v.created_at)).flatMap
      (fun w => w.changes))

/-- JSON values, the common wire shape in which the two read paths' outputs
reach a client; used to compare the cached path's `data` with the direct
path's materialized record list. -/
inductive Jval where
  | num : Int → Jval
  | arr : List Jval → Jval
  | obj : List (String × Jval) → Jval
deriving Repr

/-- A record as JSON. -/
def recordJ (r : Record) : Jval := .obj (r.map (fun kv => (kv.1, .num kv.2)))

/-- A change-log payload as JSON. -/
def payloadJ (p : Payload) : Jval :=
  .obj (p.map (fun kv => (kv.1, .arr (kv.2.map recordJ))))

/-- The direct path's `complete_data` as JSON. -/
def recordsJ (rs : List Record) : Jval := .arr (rs.map recordJ)

/-- The cached path's `data` as JSON. -/
def payloadsJ (ps : List Payload) : Jval := .arr (ps.map payloadJ)

/-- The keys of a JSON object. -/
def jTopKeys : Jval → List String
  | .obj kvs => kvs.map Prod.fst
  | _ => []

/-- The keys of the first object of a JSON array. -/
def jHeadKeys : Jval → List String
  | .arr (x :: _) => jTopKeys x
  | _ => []

/-!
### Schema compatibility checker
(`dataset_utils.py:28-57`, `validate_schema_compatibility`)
-/

/-- One warning emitted by `validate_schema_compatibility`, as a tagged
value; `renderWarning` gives the exact f-string text the source builds. -/
inductive SchemaWarning where
  | removed (column : String)
  | typeChanged (column oldType newType : String)
  | narrowed (column : String)
deriving Repr, DecidableEq

/-- The f-string each warning kind renders to. -/
def renderWarning : SchemaWarning → String
  | .removed c => "Column '" ++ c ++ "' has been removed"
  | .typeChanged c o n =>
    "Data type changed for column '" ++ c ++ "': " ++ o ++ " -> " ++ n
  | .narrowed c =>
    "Column '" ++ c ++ "' changed from nullable to non-nullable"

/-- The column a warning is about. -/
def warningColumn : SchemaWarning → String
  | .removed c => c
  | .typeChanged c _ _ => c
  | .narrowed c => c

/-- The dict comprehension `{col["column_name"]: col for col in schema}`:
first occurrence of a key fixes its position, a later occurrence overwrites
the value (CPython dict semantics). -/
def buildColumns (schema : List SchemaCol) : List (String × SchemaCol) :=
  schema.foldl (fun acc col =>
    if (alistFind col.column_name acc).isSome then
      acc.map (fun kv =>
        if kv.1 = col.column_name then (kv.1, col) else kv)
    else acc ++ [(col.column_name, col)]) []

/-- The body of the modified-columns loop for one entry of `new_columns`:
a type-changed warning when the declared type differs, then a narrowing
warning when nullability goes `True → False`; nothing when the column is
not in `old_columns`. -/
def modWarnings (old_columns : List (String × SchemaCol))
    (kv : String × SchemaCol) : List SchemaWarning :=
  match alistFind kv.1 old_columns with
  | none => []
  | some old_col =>
    (if kv.2.data_type = old_col.data_type then []
     else [.typeChanged kv.1 old_col.data_type kv.2.data_type]) ++
    (if old_col.is_nullable && !kv.2.is_nullable then [.narrowed kv.1]
     else [])

/-- `validate_schema_compatibility(old_schema, new_schema)`: removed-column
warnings in `old_columns` order, then per-column type/narrowing warnings in
`new_columns` order. -/
def validate_schema_compatibility (old_schema new_schema : List SchemaCol) :
    List SchemaWarning :=
  let old_columns := buildColumns old_schema
  let new_columns := buildColumns new_schema
  ((old_columns.filter (fun kv => (alistFind kv.1 new_columns).isNone)).map
    (fun kv => SchemaWarning.removed kv.1)) ++
  new_columns.flatMap (modWarnings old_columns)

/-!
### Version-number assignment (`versions.py:255-263`)

`create_new_version` computes
`f"{float(latest_version.version_number) + 0.1:.1f}"`. CPython's
`float(str)`, float `+` and `format(..., '.1f')` are all correctly rounded
with respect to IEEE-754 binary64, so they are modelled by exact rational
arithmetic composed with `roundDouble`, the binary64 rounding function
(round to nearest, ties to even; the values reached here are normal and far
from overflow). Version numbers are measured in tenths: `"1.0"` is `10`.
-/

/-- An exact nonnegative fraction `num / den` with `den > 0`, kept
unnormalized: `ℚ` arithmetic normalizes through `Nat.gcd`, which the kernel
cannot reduce, while these fractions evaluate by plain integer arithmetic.
The value represented is `num / den` as a real number. -/
structure Frac where
  num : ℤ
  den : ℕ
deriving Repr, DecidableEq

/-- Exact addition: `a/b + c/d = (a*d + c*b) / (b*d)`. -/
def fracAdd (x y : Frac) : Frac :=
  ⟨x.num * y.den + y.num * x.den, x.den * y.den⟩

/-- Round-half-to-even of a fraction to an integer: floor it, then compare
the remainder against one half by cross multiplication. -/
def fracRoundHalfEven (q : Frac) : ℤ :=
  let f := q.num.fdiv q.den
  let rnum := q.num - f * q.den
  if rnum * 2 < (q.den : ℤ) then f
  else if (q.den : ℤ) < rnum * 2 then f + 1
  else if f % 2 = 0 then f else f + 1

/-- Normalize a positive fraction to `m ∈ [1, 2)` with value `m * 2^e`;
fuel-bounded (2200 steps cover the binary64 exponent range). -/
def normPos : ℕ → Frac → ℤ → Frac × ℤ
  | 0, q, e => (q, e)
  | fuel + 1, q, e =>
    if q.num < (q.den : ℤ) then normPos fuel ⟨q.num * 2, q.den⟩ (e - 1)
    else if 2 * (q.den : ℤ) ≤ q.num then normPos fuel ⟨q.num, q.den * 2⟩ (e + 1)
    else (q, e)

/-- The binary64 double nearest to a nonnegative fraction (round to
nearest, ties to even; 53-bit significand): normalize to `m * 2^e` with
`m ∈ [1, 2)`, round `m * 2^52` to an integer significand, and rescale. -/
def roundDouble (q : Frac) : Frac :=
  if q.num ≤ 0 then ⟨0, 1⟩
  else
    let me := normPos 2200 q 0
    let mant : ℤ := fracRoundHalfEven ⟨me.1.num * 2 ^ 52, me.1.den⟩
    if 52 ≤ me.2 then ⟨mant * 2 ^ (me.2 - 52).toNat, 1⟩
    else ⟨mant, 2 ^ (52 - me.2).toNat⟩

/-- `f"{float(s) + 0.1:.1f}"` on a version number worth `t` tenths:
parse to the nearest double, add the double nearest `0.1` with correctly
rounded binary64 addition, and round the result to one decimal place
(`%.1f`; a tie between two tenths never occurs for binary64 values in this
range). Returns the new value in tenths. -/
def nextVersionTenths (t : ℕ) : ℤ :=
  let x := roundDouble ⟨t, 10⟩
  let y := roundDouble ⟨1, 10⟩
  let s := roundDouble (fracAdd x y)
  fracRoundHalfEven ⟨s.num * 10, s.den⟩

/-- Decimal digits of `n`, most significant first (fuel-bounded; 20 digits
cover every value reached here). Char-level so that the kernel can evaluate
it, unlike `Nat.repr`/`String.splitOn`. -/
def natDigits : ℕ → ℕ → List Char
  | 0, _ => []
  | fuel + 1, n =>
    if n < 10 then [Char.ofNat (48 + n)]
    else natDigits fuel (n / 10) ++ [Char.ofNat (48 + n % 10)]

/-- Render `t` tenths as the `%.1f` string, e.g. `12` ↦ `"1.2"`. -/
def tenthsToString (t : ℕ) : String :=
  ⟨natDigits 20 (t / 10) ++ '.' :: natDigits 20 (t % 10)⟩

/-- Split a character list at the first `'.'`. -/
def splitDot : List Char → List Char × List Char
  | [] => ([], [])
  | ch :: rest =>
    if ch = '.' then ([], rest)
    else
      let r := splitDot rest
      (ch :: r.1, r.2)

/-- The value of a decimal digit string. -/
def digitsToNat (cs : List Char) : ℕ :=
  cs.foldl (fun acc ch => acc * 10 + (ch.toNat - 48)) 0

/-- Parse a version-number string `"a.b"` (as the system itself formats
them: one decimal digit) into tenths. -/
def stringToTenths (s : String) : ℕ :=
  let p := splitDot s.data
  digitsToNat p.1 * 10 + digitsToNat p.2

/-- `create_new_version`'s number assignment,
`f"{float(latest_version.version_number) + 0.1:.1f}"`, on version strings. -/
def nextVersionNumber (s : String) : String :=
  tenthsToString (nextVersionTenths (stringToTenths s)).toNat

/-!
### Concrete evaluations of the embeddings (spec's worked examples)
-/

example : replay [⟨"INSERT", [("initial_data", [[("id", 1), ("x", 1)], [("id", 2), ("x", 2)]])]⟩,
                  ⟨"UPDATE", [("modified", [[("id", 1), ("x", 9)]])]⟩] =
    some [[("id", 1), ("x", 9)], [("id", 2), ("x", 2)]] := by decide

example : replay [⟨"INSERT", [("initial_data", [[("id", 1), ("x", 1)]])]⟩,
                  ⟨"DELETE", [("deleted", [[("x", 1), ("id", 1)]])]⟩] = some [] := by decide

example : replay [⟨"INSERT", [("initial_data", [[("id", 1), ("x", 1)]])]⟩,
                  ⟨"DELETE", [("deleted", [[("id", 1), ("x", 2)]])]⟩] =
    some [[("id", 1), ("x", 1)]] := by decide

example : replay [⟨"INSERT", [("initial_data", [[("x", 1)]])]⟩,
                  ⟨"UPDATE", [("modified", [[("id", 1)]])]⟩] = none := by decide

example : bulkInsert [[("id", 1)], [("id", 2)], [("id", 3)], [("id", 4)], [("id", 5)]] 2 none =
    ⟨[[("batch_data", [[("id", 1)], [("id", 2)]])],
      [("batch_data", [[("id", 3)], [("id", 4)]])],
      [("batch_data", [[("id", 5)]])]], some 5⟩ := by decide

/-!
### Dict and merge lemmas
-/

theorem getField_eq_none (r : Record) (k : String)
    (h : k ∉ r.map Prod.fst) : getField r k = none := by
  induction r with
  | nil => rfl
  | cons kv rest ih =>
    simp only [List.map_cons, List.mem_cons, not_or] at h
    rw [getField, if_neg (fun hh => h.1 hh.symm)]
    exact ih h.2

theorem getField_setField (r : Record) (k' k : String) (v : Int) :
    getField (setField r k' v) k = if k' = k then some v else getField r k := by
  induction r with
  | nil =>
    by_cases h : k' = k <;> simp [setField, getField, h]
  | cons kv rest ih =>
    by_cases h1 : kv.1 = k'
    · by_cases h2 : k' = k
      · simp [setField, h1, getField, h2]
      · have hkv : ¬ kv.1 = k := by rw [h1]; exact h2
        simp [setField, h1, getField, h2, hkv]
    · rw [setField, if_neg h1]
      by_cases h2 : kv.1 = k
      · have hk : ¬ k' = k := fun hh => h1 (h2.trans hh.symm)
        simp [getField, h2, hk]
      · simp [getField, h2, ih]

theorem getField_pyUpdate_isSome (m : Record) :
    ∀ (r : Record) (k : String), (getField r k).isSome →
      (getField (pyUpdate r m) k).isSome := by
  induction m with
  | nil => intro r k h; simpa [pyUpdate] using h
  | cons kv m ih =>
    intro r k h
    have hstep : (getField (setField r kv.1 kv.2) k).isSome := by
      rw [getField_setField]
      by_cases hk : kv.1 = k <;> simp [hk, h]
    simpa [pyUpdate] using ih (setField r kv.1 kv.2) k hstep

theorem getField_pyUpdate (m : Record) :
    ∀ (r : Record) (k : String), (m.map Prod.fst).Nodup →
      getField (pyUpdate r m) k = (getField m k).or (getField r k) := by
  induction m with
  | nil => intro r k _; simp [pyUpdate, getField]
  | cons kv m ih =>
    intro r k hnd
    simp only [List.map_cons, List.nodup_cons] at hnd
    have hrec := ih (setField r kv.1 kv.2) k hnd.2
    simp only [pyUpdate, List.foldl_cons] at hrec ⊢
    rw [hrec, getField_setField]
    by_cases hk : kv.1 = k
    · have hnone : getField m k = none := by
        subst hk
        exact getField_eq_none m kv.1 hnd.1
      simp [hk, getField, hnone]
    · simp [getField, hk]

theorem specMergeOne_preserves_id (acc : List Record) (m : Record)
    (hacc : ∀ r ∈ acc, (getField r "id").isSome) :
    ∀ r ∈ specMergeOne acc m, (getField r "id").isSome := by
  induction acc with
  | nil => intro r hr; simp [specMergeOne] at hr
  | cons a rest ih =>
    intro r hr
    simp only [specMergeOne] at hr
    by_cases h : getField a "id" = getField m "id"
    · rw [if_pos h] at hr
      rcases List.mem_cons.mp hr with h1 | h2
      · subst h1
        exact getField_pyUpdate_isSome m a "id" (hacc a (List.mem_cons_self ..))
      · exact hacc r (List.mem_cons_of_mem _ h2)
    · rw [if_neg h] at hr
      rcases List.mem_cons.mp hr with h1 | h2
      · subst h1; exact hacc r (List.mem_cons_self ..)
      · exact ih (fun x hx => hacc x (List.mem_cons_of_mem _ hx)) r h2

theorem updateScan_eq_specMergeOne (acc : List Record) (m : Record)
    (hacc : ∀ r ∈ acc, (getField r "id").isSome)
    (hm : (getField m "id").isSome) :
    updateScan acc m = some (specMergeOne acc m) := by
  induction acc with
  | nil => simp [updateScan, specMergeOne]
  | cons a rest ih =>
    obtain ⟨ida, hida⟩ := Option.isSome_iff_exists.mp (hacc a (List.mem_cons_self ..))
    obtain ⟨idm, hidm⟩ := Option.isSome_iff_exists.mp hm
    simp only [updateScan, specMergeOne, hida, hidm]
    by_cases h : ida = idm
    · simp [h]
    · have hne : ¬ (some ida = some idm) := by simp [h]
      rw [if_neg h, ih (fun x hx => hacc x (List.mem_cons_of_mem _ hx))]
      simp [hida, hidm, hne]

theorem foldlM_updateScan_eq (ms : List Record) :
    ∀ acc : List Record, (∀ r ∈ acc, (getField r "id").isSome) →
      (∀ m ∈ ms, (getField m "id").isSome) →
      ms.foldlM updateScan acc = some (ms.foldl specMergeOne acc) := by
  induction ms with
  | nil => intro acc _ _; simp
  | cons m ms ih =>
    intro acc hacc hms
    rw [List.foldlM_cons,
        updateScan_eq_specMergeOne acc m hacc (hms m (List.mem_cons_self ..))]
    simp only [Option.bind_eq_bind, Option.some_bind, List.foldl_cons]
    exact ih (specMergeOne acc m) (specMergeOne_preserves_id acc m hacc)
      (fun x hx => hms x (List.mem_cons_of_mem _ hx))

/-!
### Claims C1, C2, C3
-/

/-- C1 (counterexample): with accumulator `[{x:1}]` (no `id` field) and an
UPDATE whose `modified` record has `id:1`, no accumulator record matches —
the claim says the partial record is silently dropped with no error, but the
replay evaluates `existing_record["id"]` on the id-less record and raises a
`KeyError` (modelled as `none`). -/
theorem c1_update_keyerror_counterexample :
    replay [⟨"INSERT", [("initial_data", [[("x", 1)]])]⟩,
            ⟨"UPDATE", [("modified", [[("id", 1)]])]⟩] = none ∧
    (none : Option (List Record)) ≠ some [[("x", 1)]] := by
  exact ⟨by decide, by decide⟩

/-- C1 (amended): provided every accumulator record carries an `"id"` field
(and each partial record does too), an UPDATE entry merges each partial
record into the first accumulator record with matching `"id"` — `pyUpdate`
preserves fields the partial record does not mention, `getField_pyUpdate` —
and silently drops partial records with no match, raising no error. -/
theorem c1_update_merges_by_first_id (acc : List Record) (p : Payload)
    (ms : List Record) (hm : alistFind "modified" p = some ms)
    (hacc : ∀ r ∈ acc, (getField r "id").isSome)
    (hms : ∀ m ∈ ms, (getField m "id").isSome) :
    applyChange acc ⟨"UPDATE", p⟩ = some (ms.foldl specMergeOne acc) := by
  have h : applyChange acc ⟨"UPDATE", p⟩ = ms.foldlM updateScan acc := by
    simp [applyChange, payloadGet, hm]
  rw [h]
  exact foldlM_updateScan_eq ms acc hacc hms

/-- C1 (witness): the amended theorem at the spec's concrete example. -/
theorem c1_update_merges_witness :
    applyChange [[("id", 1), ("x", 1)], [("id", 2), ("x", 2)]]
        ⟨"UPDATE", [("modified", [[("id", 1), ("x", 9)]])]⟩ =
      some ([[("id", 1), ("x", 9)]].foldl specMergeOne
        [[("id", 1), ("x", 1)], [("id", 2), ("x", 2)]]) :=
  c1_update_merges_by_first_id _ _ _ (by decide) (by decide) (by decide)

/-- C2: a DELETE entry carrying a `deleted` list removes exactly the
accumulator records that are value-equal (Python dict equality) to some
deleted record; records equal to no deleted record — in particular one
sharing only the `id` of a deleted record — are kept unchanged, in order. -/
theorem c2_delete_value_equal (acc : List Record) (p : Payload)
    (ds : List Record) (hds : alistFind "deleted" p = some ds) :
    applyChange acc ⟨"DELETE", p⟩ =
      some (acc.filter (fun r => !ds.any (pyEqb r))) ∧
    (∀ r, r ∈ acc.filter (fun r => !ds.any (pyEqb r)) ↔
      r ∈ acc ∧ ¬ ∃ d ∈ ds, pyEqb r d = true) := by
  constructor
  · simp [applyChange, payloadGet, hds]
  · intro r
    simp [List.mem_filter, List.any_eq_true]

/-- C2 (witness): the spec's concrete DELETE examples: a value-equal record
is removed; a record sharing only the `id` (different `x`) is kept. -/
theorem c2_delete_value_equal_witness :
    (applyChange [[("id", 1), ("x", 1)]] ⟨"DELETE", [("deleted", [[("id", 1), ("x", 2)]])]⟩ =
      some ([[("id", 1), ("x", 1)]].filter
        (fun r => !([[("id", 1), ("x", 2)]] : List Record).any (pyEqb r)))) ∧
    (applyChange [[("id", 1), ("x", 1)]] ⟨"DELETE", [("deleted", [[("x", 1), ("id", 1)]])]⟩ =
      some ([[("id", 1), ("x", 1)]].filter
        (fun r => !([[("x", 1), ("id", 1)]] : List Record).any (pyEqb r)))) := by
  refine ⟨(c2_delete_value_equal _ _ _ (by decide)).1, (c2_delete_value_equal _ _ _ (by decide)).1⟩

theorem foldlM_insert_added (rest : List ChangeEntry) :
    ∀ acc : List Record,
      (∀ e ∈ rest, e.op = "INSERT" ∧ alistFind "initial_data" e.data = none ∧
        (alistFind "added" e.data).isSome) →
      rest.foldlM applyChange acc =
        some (acc ++ rest.flatMap (fun e => payloadGet e.data "added")) := by
  induction rest with
  | nil => intro acc _; simp
  | cons e rest ih =>
    intro acc hrest
    obtain ⟨hop, hnoinit, _⟩ := hrest e (List.mem_cons_self ..)
    have hstep : applyChange acc e = some (acc ++ payloadGet e.data "added") := by
      simp [applyChange, hop, payloadHas, hnoinit]
    rw [List.foldlM_cons, hstep]
    simp only [Option.bind_eq_bind, Option.some_bind]
    rw [ih (acc ++ payloadGet e.data "added")
      (fun x hx => hrest x (List.mem_cons_of_mem _ hx))]
    simp [List.append_assoc]

/-- C3: replaying a change log made only of INSERT entries — the first
carrying `initial_data`, the later ones carrying `added` lists (and no
`initial_data` key) — yields the concatenation of all inserted record lists
in entry order; successive INSERTs accumulate. -/
theorem c3_insert_only_concat (e0 : ChangeEntry) (rest : List ChangeEntry)
    (d0 : List Record)
    (h0 : e0.op = "INSERT") (hd0 : alistFind "initial_data" e0.data = some d0)
    (hrest : ∀ e ∈ rest, e.op = "INSERT" ∧ alistFind "initial_data" e.data = none ∧
      (alistFind "added" e.data).isSome) :
    replay (e0 :: rest) =
      some (d0 ++ rest.flatMap (fun e => payloadGet e.data "added")) := by
  have hstep : applyChange [] e0 = some d0 := by
    simp [applyChange, h0, payloadHas, payloadGet, hd0]
  rw [replay, List.foldlM_cons, hstep]
  simp only [Option.bind_eq_bind, Option.some_bind]
  exact foldlM_insert_added rest d0 hrest

/-- C3 (witness): two INSERT entries after the initial one accumulate. -/
theorem c3_insert_only_concat_witness :
    replay [⟨"INSERT", [("initial_data", [[("id", 1)]])]⟩,
            ⟨"INSERT", [("added", [[("id", 2)], [("id", 3)]])]⟩,
            ⟨"INSERT", [("added", [[("id", 4)]])]⟩] =
      some ([[("id", 1)]] ++
        ([⟨"INSERT", [("added", [[("id", 2)], [("id", 3)]])]⟩,
          ⟨"INSERT", [("added", [[("id", 4)]])]⟩] : List ChangeEntry).flatMap
          (fun e => payloadGet e.data "added")) :=
  c3_insert_only_concat _ _ _ (by decide) (by decide) (by decide)

/-!
### Claim C10
-/

theorem applyChange_changes_payload (acc : List Record) (op : String)
    (d : List Record) :
    applyChange acc ⟨op, [("changes", d)]⟩ = some acc := by
  by_cases h1 : op = "INSERT"
  · simp [applyChange, h1, payloadHas, payloadGet, alistFind]
  · by_cases h2 : op = "UPDATE"
    · simp [applyChange, h1, h2, payloadGet, alistFind]
    · by_cases h3 : op = "DELETE"
      · simp [applyChange, h1, h2, h3, payloadGet, alistFind, List.filter_eq_self]
      · simp [applyChange, h1, h2, h3]

/-- C10: a change-log entry written by `create_new_version` stores its data
under the single key `"changes"`, which the replay fold never reads; removing
such an entry from anywhere in the log leaves every materialization
unchanged, so data supplied via CreateVersion never affects any
materialization. -/
theorem c10_changes_payload_inert (pre post : List ChangeEntry) (op : String)
    (d : List Record) :
    replay (pre ++ ⟨op, [("changes", d)]⟩ :: post) = replay (pre ++ post) := by
  rw [replay, replay, List.foldlM_append, List.foldlM_append]
  cases hpre : pre.foldlM applyChange ([] : List Record) with
  | none => simp
  | some acc =>
    simp only [Option.bind_eq_bind, Option.some_bind]
    rw [List.foldlM_cons, applyChange_changes_payload]
    simp

/-!
### Bulk-insert lemmas and claims C4, C5
-/

theorem bulkFold_committed_pending (records : List Record) (b : ℕ)
    (l : List ℕ) : ∀ s : BulkState,
    (l.foldl (bulkStepState records b) s).committed ++
        (l.foldl (bulkStepState records b) s).pending =
      s.committed ++ s.pending ++ l.map (batchPayload records b) := by
  induction l with
  | nil => intro s; simp
  | cons i rest ih =>
    intro s
    rw [List.foldl_cons, ih]
    by_cases h : i % (b * 5) = 0 <;>
      simp [bulkStepState, flushState, h, List.append_assoc]

theorem bulkFold_total (records : List Record) (b : ℕ)
    (l : List ℕ) : ∀ s : BulkState,
    (l.foldl (bulkStepState records b) s).total =
      s.total + (l.map (fun i => (chunkAt records b i).length)).sum := by
  induction l with
  | nil => intro s; simp
  | cons i rest ih =>
    intro s
    rw [List.foldl_cons, ih]
    by_cases h : i % (b * 5) = 0 <;>
      simp [bulkStepState, flushState, h, Nat.add_assoc]

theorem bulkGo_nofail (records : List Record) (b : ℕ) (l : List ℕ) :
    ∀ s : BulkState,
    bulkGo records b none l s =
      ⟨(l.foldl (bulkStepState records b) s).committed ++
        (l.foldl (bulkStepState records b) s).pending,
       some (l.foldl (bulkStepState records b) s).total⟩ := by
  induction l with
  | nil => intro s; rfl
  | cons i rest ih => intro s; simp [bulkGo, ih]

theorem bulkGo_fail_split (records : List Record) (b j : ℕ)
    (after : List ℕ) (before : List ℕ) : ∀ s : BulkState,
    (∀ i ∈ before, i ≠ j) →
    bulkGo records b (some j) (before ++ j :: after) s =
      ⟨(before.foldl (bulkStepState records b) s).committed, none⟩ := by
  induction before with
  | nil => intro s _; simp [bulkGo]
  | cons i rest ih =>
    intro s hne
    have hij : ¬ (some j = some i) := by
      simp [Ne.symm (hne i (List.mem_cons_self ..))]
    rw [List.cons_append, bulkGo, if_neg hij, List.foldl_cons]
    exact ih _ (fun x hx => hne x (List.mem_cons_of_mem _ hx))

theorem bulkFold_noflush (records : List Record) (b : ℕ) (l : List ℕ) :
    ∀ s : BulkState, (∀ i ∈ l, i % (b * 5) ≠ 0) →
    (l.foldl (bulkStepState records b) s).committed = s.committed := by
  induction l with
  | nil => intro s _; rfl
  | cons i rest ih =>
    intro s hl
    rw [List.foldl_cons]
    rw [ih _ (fun x hx => hl x (List.mem_cons_of_mem _ hx))]
    simp [bulkStepState, hl i (List.mem_cons_self ..)]

theorem chunkStarts_nil (b : ℕ) : chunkStarts 0 b = [] := by
  have h : (b - 1) / b = 0 := by
    cases b with
    | zero => rfl
    | succ b' => exact Nat.div_eq_of_lt (by omega)
  simp [chunkStarts, h]

theorem ceil_div_peel (n b : ℕ) (hn : 1 ≤ n) (hb : 1 ≤ b) :
    (n + b - 1) / b = ((n - b) + b - 1) / b + 1 := by
  have h1 : n + b - 1 = (n - 1) + b := by omega
  rw [h1, Nat.add_div_right _ hb]
  by_cases h : n ≤ b
  · have h2 : n - b = 0 := by omega
    have h3 : (n - 1) / b = 0 := Nat.div_eq_of_lt (by omega)
    have h4 : (0 + b - 1) / b = 0 := Nat.div_eq_of_lt (by omega)
    rw [h2, h3, h4]
  · have h2 : (n - b) + b - 1 = (n - b - 1) + b := by omega
    rw [h2, Nat.add_div_right _ hb]
    have h3 : n - 1 = (n - b - 1) + b := by omega
    rw [h3, Nat.add_div_right _ hb]

theorem chunkStarts_peel (n b : ℕ) (hn : 1 ≤ n) (hb : 1 ≤ b) :
    chunkStarts n b = 0 :: (chunkStarts (n - b) b).map (· + b) := by
  rw [chunkStarts, chunkStarts, ceil_div_peel n b hn hb, List.range_succ_eq_map]
  simp only [List.map_cons, Nat.zero_mul, List.map_map]
  congr 1
  apply List.map_congr_left
  intro i _
  simp [Function.comp, Nat.succ_mul]

theorem sum_min_chunks (b : ℕ) (hb : 1 ≤ b) : ∀ n : ℕ,
    ((chunkStarts n b).map (fun i => min b (n - i))).sum = n := by
  intro n
  induction n using Nat.strong_induction_on with
  | _ n ih =>
    rcases Nat.eq_zero_or_pos n with h0 | hpos
    · subst h0; simp [chunkStarts_nil]
    · rw [chunkStarts_peel n b hpos hb]
      simp only [List.map_cons, List.map_map, List.sum_cons, Nat.sub_zero]
      have hcong : (chunkStarts (n - b) b).map ((fun i => min b (n - i)) ∘ (· + b)) =
          (chunkStarts (n - b) b).map (fun i => min b ((n - b) - i)) := by
        apply List.map_congr_left
        intro i _
        simp only [Function.comp]
        congr 1
        omega
      rw [hcong, ih (n - b) (by omega)]
      omega

theorem chunkAt_length (records : List Record) (b i : ℕ) :
    (chunkAt records b i).length = min b (records.length - i) := by
  simp [chunkAt]

/-- C5 (counterexample): with `batchSize = 2` over 5 records the committed
entries do carry one payload per chunk and `records_processed = 5`, but the
payloads are keyed `"batch_data"`, not `"added"` — the claim's
`'added'`-shaped payload is refuted. -/
theorem c5_added_key_counterexample :
    ¬ (∀ p ∈ (bulkInsert [[("id", 1)], [("id", 2)], [("id", 3)], [("id", 4)], [("id", 5)]]
          2 none).committed, (alistFind "added" p).isSome = true) ∧
    (bulkInsert [[("id", 1)], [("id", 2)], [("id", 3)], [("id", 4)], [("id", 5)]]
        2 none).committed.length = 3 ∧
    (bulkInsert [[("id", 1)], [("id", 2)], [("id", 3)], [("id", 4)], [("id", 5)]]
        2 none).outcome = some 5 := by
  exact ⟨by decide, by decide, by decide⟩

/-- C5 (amended): for `1 ≤ batchSize`, BulkInsert splits the records into
`ceil(n / batchSize)` consecutive chunks of at most `batchSize` records,
appends exactly one change-log entry per chunk — each carrying a
`"batch_data"`-keyed payload holding that chunk (not an `"added"`-shaped
payload) — and reports `records_processed = n`. -/
theorem c5_bulk_batches (records : List Record) (b : ℕ) (hb : 1 ≤ b) :
    bulkInsert records b none =
      ⟨(chunkStarts records.length b).map (batchPayload records b),
        some records.length⟩ ∧
    (chunkStarts records.length b).length = (records.length + b - 1) / b := by
  refine ⟨?_, by simp [chunkStarts]⟩
  rw [bulkInsert, bulkGo_nofail]
  have hcp := bulkFold_committed_pending records b
    (chunkStarts records.length b) ⟨[], [], 0⟩
  have ht := bulkFold_total records b (chunkStarts records.length b) ⟨[], [], 0⟩
  simp only [List.nil_append] at hcp
  simp only [Nat.zero_add] at ht
  have hmapeq : (chunkStarts records.length b).map
        (fun i => (chunkAt records b i).length) =
      (chunkStarts records.length b).map
        (fun i => min b (records.length - i)) :=
    List.map_congr_left (fun i _ => chunkAt_length records b i)
  have hsum : ((chunkStarts records.length b).map
      (fun i => (chunkAt records b i).length)).sum = records.length := by
    rw [hmapeq]
    exact sum_min_chunks b hb records.length
  rw [hcp, ht, hsum]

/-- C5 (witness): the amended theorem at 5 records and `batchSize = 2`:
`ceil(5/2) = 3` entries, `records_processed = 5`. -/
theorem c5_bulk_batches_witness :
    bulkInsert [[("id", 1)], [("id", 2)], [("id", 3)], [("id", 4)], [("id", 5)]] 2 none =
      ⟨(chunkStarts ([[("id", 1)], [("id", 2)], [("id", 3)], [("id", 4)], [("id", 5)]] :
          List Record).length 2).map
        (batchPayload [[("id", 1)], [("id", 2)], [("id", 3)], [("id", 4)], [("id", 5)]] 2),
       some ([[("id", 1)], [("id", 2)], [("id", 3)], [("id", 4)], [("id", 5)]] :
          List Record).length⟩ ∧
    (chunkStarts ([[("id", 1)], [("id", 2)], [("id", 3)], [("id", 4)], [("id", 5)]] :
        List Record).length 2).length =
      (([[("id", 1)], [("id", 2)], [("id", 3)], [("id", 4)], [("id", 5)]] :
        List Record).length + 2 - 1) / 2 :=
  c5_bulk_batches _ 2 (by decide)

/-- C4 (counterexample): two records with `batchSize = 1`, failing at the
second chunk: the first chunk was committed by the periodic flush at
`i = 0` (`0 % (batch_size*5) == 0`), so after the rollback one change-log
entry of this call remains committed — not zero as the claim states — while
the processing error is reported. -/
theorem c4_rollback_counterexample :
    (bulkInsert [[("id", 1)], [("id", 2)]] 1 (some 1)).outcome = none ∧
    (bulkInsert [[("id", 1)], [("id", 2)]] 1 (some 1)).committed =
      [[("batch_data", [[("id", 1)]])]] := by
  exact ⟨by decide, by decide⟩

/-- C4 (amended): if BulkInsert fails while processing chunk `q` (of size-`b`
chunks, `1 ≤ b`, `1 ≤ q`, `q` a real chunk index), the rollback discards only
the entries added since the last periodic commit: the chunks up to the last
flush point `5 * ((q-1)/5)` remain committed, and a processing error is
reported. Partial success across chunks IS observable; only the suffix since
the last flush is rolled back. -/
theorem c4_flushed_batches_survive (records : List Record) (b q : ℕ)
    (hb : 1 ≤ b) (hq : 1 ≤ q)
    (hlt : q < (records.length + b - 1) / b) :
    bulkInsert records b (some (q * b)) =
      ⟨(List.range (5 * ((q - 1) / 5) + 1)).map
          (fun i => batchPayload records b (i * b)), none⟩ := by
  set c := (records.length + b - 1) / b with hcdef
  set t := (q - 1) / 5 with htdef
  have hble : 0 < b := hb
  have h5t1 : 5 * t + 1 ≤ q := by omega
  have hsplit : ∃ tail, chunkStarts records.length b =
      ((List.range q).map (· * b)) ++ (q * b) :: tail := by
    obtain ⟨k, hk⟩ : ∃ k, c = q + (k + 1) := ⟨c - q - 1, by omega⟩
    refine ⟨(List.range k).map (fun i => (q + (i + 1)) * b), ?_⟩
    rw [chunkStarts, ← hcdef, hk, List.range_add, List.range_succ_eq_map]
    simp [List.map_map, Function.comp]
  obtain ⟨tail, hsplit⟩ := hsplit
  have hne : ∀ i ∈ (List.range q).map (· * b), i ≠ q * b := by
    intro x hx
    simp only [List.mem_map, List.mem_range] at hx
    obtain ⟨i, hi, rfl⟩ := hx
    exact Nat.ne_of_lt ((Nat.mul_lt_mul_right hble).mpr hi)
  rw [bulkInsert, hsplit,
    bulkGo_fail_split records b (q * b) tail ((List.range q).map (· * b))
      ⟨[], [], 0⟩ hne]
  congr 1
  obtain ⟨w, hw⟩ : ∃ w, q = (5 * t + 1) + w := ⟨q - (5 * t + 1), by omega⟩
  have hbefore : (List.range q).map (· * b) =
      ((List.range (5 * t + 1)).map (· * b)) ++
        ((List.range w).map (fun i => ((5 * t + 1) + i) * b)) := by
    rw [hw, List.range_add]
    simp [List.map_map, Function.comp]
  have hnoflush : ∀ x ∈ (List.range w).map (fun i => ((5 * t + 1) + i) * b),
      x % (b * 5) ≠ 0 := by
    intro x hx
    simp only [List.mem_map, List.mem_range] at hx
    obtain ⟨i, hi, rfl⟩ := hx
    intro hmod0
    obtain ⟨m, hm⟩ := Nat.dvd_of_mod_eq_zero hmod0
    have hu : 5 * t + 1 + i = 5 * m := by
      apply Nat.eq_of_mul_eq_mul_right hble
      rw [hm]; ring
    have hub : 5 * t + 1 + i ≤ q - 1 := by omega
    have hmge : t + 1 ≤ m := by omega
    have hcon : t + 1 ≤ (q - 1) / 5 := by
      rw [Nat.le_div_iff_mul_le (by omega : 0 < 5)]
      omega
    omega
  rw [hbefore, List.foldl_append,
    bulkFold_noflush records b _ _ hnoflush]
  have htakeF : (List.range (5 * t + 1)).map (· * b) =
      ((List.range (5 * t)).map (· * b)) ++ [5 * t * b] := by
    rw [List.range_succ]
    simp
  have hmod : (5 * t * b) % (b * 5) = 0 := by
    rw [show 5 * t * b = (b * 5) * t from by ring]
    exact Nat.mul_mod_right (b * 5) t
  rw [htakeF, List.foldl_append]
  simp only [List.foldl_cons, List.foldl_nil]
  have hP := bulkFold_committed_pending records b
    ((List.range (5 * t)).map (· * b)) ⟨[], [], 0⟩
  simp only [List.nil_append] at hP
  rw [bulkStepState]
  simp only [hmod, if_pos, flushState]
  rw [← List.append_assoc, hP, List.range_succ]
  simp [List.map_map, Function.comp]

/-- C4 (witness): the amended theorem at two one-record chunks
(`batchSize = 1`), failing at chunk index 1: chunk 0 stays committed. -/
theorem c4_flushed_batches_survive_witness :
    bulkInsert [[("id", 1)], [("id", 2)]] 1 (some (1 * 1)) =
      ⟨(List.range (5 * ((1 - 1) / 5) + 1)).map
          (fun i => batchPayload [[("id", 1)], [("id", 2)]] 1 (i * 1)), none⟩ :=
  c4_flushed_batches_survive [[("id", 1)], [("id", 2)]] 1 1
    (by decide) (by decide) (by decide)

set_option maxRecDepth 10000

/-- C7: version numbers are the prior number plus `0.1` under exact binary64
semantics, formatted to one decimal: the concrete chain
`"1.0" → "1.1" → "1.2" → "1.3"` holds, and for every tenths value
`10 ≤ t < 510` (versions `"1.0"` through `"50.9"`) the computed next number
is exactly `t + 1` tenths — monotonically increasing one-tenth increments
with single-decimal formatting. -/
theorem c7_version_numbering :
    nextVersionNumber "1.0" = "1.1" ∧ nextVersionNumber "1.1" = "1.2" ∧
    nextVersionNumber "1.2" = "1.3" ∧
    (∀ k : ℕ, k < 500 → nextVersionTenths (10 + k) = 10 + k + 1) :=
  ⟨by decide, by decide, by decide, by decide⟩

/-- C9 (counterexample): a version whose schema holds only column `"a"`,
searched with the column set `["a", "b"]`: the claim requires every column
of the set to appear in the snapshot (so the version should be excluded
because `"b"` is absent), but `search_versions` returns it — the join
`column_name IN (...)` keeps any version with at least one matching
column. -/
theorem c9_columns_filter_counterexample :
    searchVersions [⟨"1.0", 0, "INSERT", [⟨"a", "string", true⟩], []⟩]
        none none (some ["a", "b"]) =
      [⟨"1.0", 0, "INSERT", [⟨"a", "string", true⟩], []⟩] ∧
    ¬ (∀ col ∈ ["a", "b"],
        col ∈ ([⟨"a", "string", true⟩] : List SchemaCol).map
          SchemaCol.column_name) := by
  exact ⟨by decide, by decide⟩

theorem mem_searchDate (db : List VersionRow) (dr : Option (ℕ × ℕ))
    (v : VersionRow) :
    v ∈ searchDate db dr ↔
      v ∈ db ∧ (∀ p, dr = some p → p.1 ≤ v.created_at ∧ v.created_at ≤ p.2) := by
  cases dr with
  | none => simp [searchDate]
  | some p => simp [searchDate, List.mem_filter]

theorem mem_searchType (q : List VersionRow) (ct : Option String)
    (v : VersionRow) :
    v ∈ searchType q ct ↔ v ∈ q ∧ (∀ c, ct = some c → v.change_type = c) := by
  cases ct with
  | none => simp [searchType]
  | some c => simp [searchType, List.mem_filter]

theorem mem_searchCols (q : List VersionRow) (sc : Option (List String))
    (v : VersionRow) :
    v ∈ searchCols q sc ↔
      v ∈ q ∧ (∀ cols, sc = some cols →
        ∃ col ∈ v.schema_versions, col.column_name ∈ cols) := by
  cases sc with
  | none => simp [searchCols]
  | some cols =>
    simp only [searchCols, List.mem_flatMap, List.mem_map, List.mem_filter,
      Option.some.injEq, forall_eq']
    constructor
    · rintro ⟨u, hu, col, ⟨hcolmem, hcontains⟩, rfl⟩
      exact ⟨hu, col, hcolmem, List.elem_iff.mp hcontains⟩
    · rintro ⟨hv, col, hcolmem, hin⟩
      exact ⟨v, hv, col, ⟨hcolmem, List.elem_iff.mpr hin⟩, rfl⟩

/-- C9 (amended): `SearchVersions` filters conjunctively on the inclusive
creation-time range and on change-type equality, but the column filter is
existential, not universal: a version is returned iff (besides the other
filters) at least one of its schema columns is in the given set — not iff
every given column appears in its snapshot. (The join also duplicates a
version once per matching schema row.) -/
theorem c9_search_filters (db : List VersionRow) (dr : Option (ℕ × ℕ))
    (ct : Option String) (sc : Option (List String)) (v : VersionRow) :
    v ∈ searchVersions db dr ct sc ↔
      v ∈ db ∧
      (∀ p, dr = some p → p.1 ≤ v.created_at ∧ v.created_at ≤ p.2) ∧
      (∀ c, ct = some c → v.change_type = c) ∧
      (∀ cols, sc = some cols →
        ∃ col ∈ v.schema_versions, col.column_name ∈ cols) := by
  rw [searchVersions, mem_searchCols, mem_searchType, mem_searchDate]
  tauto

/-- C6 (counterexample): one version `"1.0"` created from
`initial_data = [{id:1, x:1}]`. The direct path materializes
`[{id:1, x:1}]`; the cache-miss path returns the version's raw
`changed_data` payloads, `[{initial_data: [{id:1, x:1}]}]` — as JSON these
are different shapes (an array of records vs an array of payload objects),
so the two read paths do not return equal materializations. -/
theorem c6_cached_vs_direct_counterexample :
    getVersionMaterialized
        [⟨"1.0", 0, "INSERT", [],
          [⟨"INSERT", [("initial_data", [[("id", 1), ("x", 1)]])]⟩]⟩] "1.0" =
      some [[("id", 1), ("x", 1)]] ∧
    getVersionWithCache none
        [⟨"1.0", 0, "INSERT", [],
          [⟨"INSERT", [("initial_data", [[("id", 1), ("x", 1)]])]⟩]⟩] "1.0" =
      some ⟨⟨"1.0", 0, "INSERT", []⟩,
        [[("initial_data", [[("id", 1), ("x", 1)]])]]⟩ ∧
    payloadsJ [[("initial_data", [[("id", 1), ("x", 1)]])]] ≠
      recordsJ [[("id", 1), ("x", 1)]] := by
  refine ⟨by decide, by decide, ?_⟩
  intro h
  have h2 := congrArg jHeadKeys h
  simp only [payloadsJ, recordsJ, payloadJ, recordJ, jHeadKeys, jTopKeys,
    List.map_cons, List.map_nil] at h2
  exact absurd h2 (by decide)

/-- C6 (amended): `GetCachedVersion` serves the cached value when fresh; on
a miss it looks the version up and returns its metadata plus the raw
`changed_data` payloads of that version's own change-log entries — not the
`GetVersion` materialization — so the two read paths do not return equal
record sets in general. -/
theorem c6_cache_hit_and_miss (db : List VersionRow) (vn : String)
    (v : VersionRow) (c : CachedVersionResult)
    (hfind : db.find? (fun w => w.version_number == vn) = some v) :
    getVersionWithCache none db vn =
      some ⟨formatVersionResult v, v.changes.map (fun ch => ch.data)⟩ ∧
    getVersionWithCache (some c) db vn = some c := by
  constructor
  · simp [getVersionWithCache, hfind]
  · rfl

/-- C6 (witness): the amended theorem at a one-version store and an
unrelated cached value. -/
theorem c6_cache_hit_and_miss_witness :
    getVersionWithCache none
        [⟨"1.0", 0, "INSERT", [],
          [⟨"INSERT", [("initial_data", [[("id", 1)]])]⟩]⟩] "1.0" =
      some ⟨formatVersionResult
          ⟨"1.0", 0, "INSERT", [],
            [⟨"INSERT", [("initial_data", [[("id", 1)]])]⟩]⟩,
        ([⟨"INSERT", [("initial_data", [[("id", 1)]])]⟩] :
            List ChangeEntry).map (fun ch => ch.data)⟩ ∧
    getVersionWithCache
        (some ⟨⟨"9.9", 9, "UPDATE", []⟩, []⟩)
        [⟨"1.0", 0, "INSERT", [],
          [⟨"INSERT", [("initial_data", [[("id", 1)]])]⟩]⟩] "1.0" =
      some ⟨⟨"9.9", 9, "UPDATE", []⟩, []⟩ :=
  c6_cache_hit_and_miss _ _ _ _ (by decide)

/-!
### Schema-compatibility lemmas and claim C8
-/

theorem alistFind_eq_none_iff {α : Type} (k : String) (l : List (String × α)) :
    alistFind k l = none ↔ k ∉ l.map Prod.fst := by
  induction l with
  | nil => simp [alistFind]
  | cons kv rest ih =>
    by_cases h : kv.1 = k
    · simp [alistFind, h]
    · rw [alistFind, if_neg h, ih]
      simp only [List.map_cons, List.mem_cons, not_or]
      constructor
      · intro hn; exact ⟨fun hh => h hh.symm, hn⟩
      · intro hn; exact hn.2

theorem alistFind_some_mem {α : Type} (k : String) (l : List (String × α))
    (v : α) (h : alistFind k l = some v) : (k, v) ∈ l := by
  induction l with
  | nil => simp [alistFind] at h
  | cons kv rest ih =>
    rcases kv with ⟨k', v'⟩
    by_cases hk : k' = k
    · subst hk
      rw [alistFind, if_pos rfl] at h
      obtain rfl := Option.some.inj h
      exact List.mem_cons_self ..
    · rw [alistFind, if_neg hk] at h
      exact List.mem_cons_of_mem _ (ih h)

theorem mem_keys_of_alistFind_some {α : Type} (k : String)
    (l : List (String × α)) (v : α) (h : alistFind k l = some v) :
    k ∈ l.map Prod.fst :=
  List.mem_map_of_mem Prod.fst (alistFind_some_mem k l v h)

theorem alistFind_of_mem_nodup {α : Type} (k : String) (v : α)
    (l : List (String × α)) (hnd : (l.map Prod.fst).Nodup)
    (hmem : (k, v) ∈ l) : alistFind k l = some v := by
  induction l with
  | nil => simp at hmem
  | cons kv rest ih =>
    simp only [List.map_cons, List.nodup_cons] at hnd
    rcases List.mem_cons.mp hmem with h1 | h2
    · rw [← h1, alistFind, if_pos rfl]
    · have hk : kv.1 ≠ k := by
        intro hh
        apply hnd.1
        rw [hh]
        exact List.mem_map_of_mem Prod.fst h2
      rw [alistFind, if_neg hk]
      exact ih hnd.2 h2

theorem keys_map_replace (acc : List (String × SchemaCol)) (c : String)
    (col : SchemaCol) :
    ((acc.map (fun kv => if kv.1 = c then (kv.1, col) else kv)).map
      Prod.fst) = acc.map Prod.fst := by
  induction acc with
  | nil => rfl
  | cons kv rest ih =>
    by_cases h : kv.1 = c <;> simp [h, ih]

theorem foldl_build_nodup (schema : List SchemaCol) :
    ∀ acc : List (String × SchemaCol), (acc.map Prod.fst).Nodup →
    ((schema.foldl (fun acc col =>
      if (alistFind col.column_name acc).isSome then
        acc.map (fun kv =>
          if kv.1 = col.column_name then (kv.1, col) else kv)
      else acc ++ [(col.column_name, col)]) acc).map Prod.fst).Nodup := by
  induction schema with
  | nil => intro acc h; simpa using h
  | cons col rest ih =>
    intro acc h
    rw [List.foldl_cons]
    apply ih
    by_cases hs : (alistFind col.column_name acc).isSome
    · rw [if_pos hs, keys_map_replace]
      exact h
    · rw [if_neg hs]
      have hnotin : col.column_name ∉ acc.map Prod.fst := by
        rw [← alistFind_eq_none_iff]
        cases hfind : alistFind col.column_name acc with
        | none => rfl
        | some v => exact absurd (by simp [hfind]) hs
      simp [List.nodup_append, h, hnotin]

theorem buildColumns_keys_nodup (schema : List SchemaCol) :
    ((buildColumns schema).map Prod.fst).Nodup :=
  foldl_build_nodup schema [] (by simp)

theorem countP_key_of_nodup (l : List (String × SchemaCol)) (c : String)
    (hnd : (l.map Prod.fst).Nodup) :
    l.countP (fun kv => kv.1 == c) = if c ∈ l.map Prod.fst then 1 else 0 := by
  induction l with
  | nil => simp
  | cons kv rest ih =>
    simp only [List.map_cons, List.nodup_cons] at hnd
    rw [List.countP_cons, ih hnd.2]
    by_cases h : kv.1 = c
    · subst h
      simp [hnd.1]
    · have h' : ¬ c = kv.1 := fun hh => h hh.symm
      have hbeq : ¬ (kv.1 == c) = true := by simp [h]
      rw [if_neg hbeq, Nat.add_zero, List.map_cons]
      by_cases hc : c ∈ List.map Prod.fst rest
      · rw [if_pos hc, if_pos (List.mem_cons_of_mem _ hc)]
      · rw [if_neg hc, if_neg (fun hm => by
          rcases List.mem_cons.mp hm with h1 | h2
          · exact h' h1
          · exact hc h2)]

theorem mem_modWarnings (oldC : List (String × SchemaCol))
    (kv : String × SchemaCol) (w : SchemaWarning)
    (hw : w ∈ modWarnings oldC kv) :
    warningColumn w = kv.1 ∧ (∀ k, w ≠ SchemaWarning.removed k) ∧
    (alistFind kv.1 oldC).isSome := by
  unfold modWarnings at hw
  cases hfind : alistFind kv.1 oldC with
  | none => rw [hfind] at hw; simp at hw
  | some oc =>
    rw [hfind] at hw
    simp only [List.mem_append] at hw
    have hcases :
        w = SchemaWarning.typeChanged kv.1 oc.data_type kv.2.data_type ∨
        w = SchemaWarning.narrowed kv.1 := by
      rcases hw with h | h
      · split_ifs at h with ht
        · simp at h
        · simp at h
          exact Or.inl h
      · split_ifs at h with hn
        · simp at h
          exact Or.inr h
        · simp at h
    rcases hcases with rfl | rfl
    · exact ⟨rfl, fun k hk => SchemaWarning.noConfusion hk, by simp [hfind]⟩
    · exact ⟨rfl, fun k hk => SchemaWarning.noConfusion hk, by simp [hfind]⟩

theorem count_flatMap_modW_none (oldC : List (String × SchemaCol))
    (c : String) (w : SchemaWarning) (hwc : warningColumn w = c) :
    ∀ newC : List (String × SchemaCol), alistFind c newC = none →
      (newC.flatMap (modWarnings oldC)).count w = 0 := by
  intro newC
  induction newC with
  | nil => intro _; simp
  | cons kv rest ih =>
    intro hfind
    by_cases hk : kv.1 = c
    · rw [alistFind, if_pos hk] at hfind
      exact absurd hfind (by simp)
    · rw [alistFind, if_neg hk] at hfind
      rw [List.flatMap_cons, List.count_append, ih hfind]
      have hnot : w ∉ modWarnings oldC kv := fun hmem =>
        hk ((mem_modWarnings oldC kv w hmem).1.symm.trans hwc)
      rw [List.count_eq_zero.mpr hnot]

theorem count_flatMap_modW_some (oldC : List (String × SchemaCol))
    (c : String) (w : SchemaWarning) (hwc : warningColumn w = c) :
    ∀ newC : List (String × SchemaCol), (newC.map Prod.fst).Nodup →
      ∀ nc, alistFind c newC = some nc →
      (newC.flatMap (modWarnings oldC)).count w =
        (modWarnings oldC (c, nc)).count w := by
  intro newC
  induction newC with
  | nil => intro _ nc h; simp [alistFind] at h
  | cons kv rest ih =>
    intro hnd nc hfind
    simp only [List.map_cons, List.nodup_cons] at hnd
    rw [List.flatMap_cons, List.count_append]
    by_cases hk : kv.1 = c
    · rw [alistFind, if_pos hk] at hfind
      obtain rfl := Option.some.inj hfind
      have hrest : alistFind c rest = none := by
        rw [alistFind_eq_none_iff, ← hk]
        exact hnd.1
      rw [count_flatMap_modW_none oldC c w hwc rest hrest, Nat.add_zero]
      rw [← hk]
    · rw [alistFind, if_neg hk] at hfind
      have hnot : w ∉ modWarnings oldC kv := fun hmem =>
        hk ((mem_modWarnings oldC kv w hmem).1.symm.trans hwc)
      rw [List.count_eq_zero.mpr hnot, Nat.zero_add]
      exact ih hnd.2 nc hfind

theorem count_removedPart (oldC newC : List (String × SchemaCol))
    (c : String) (hnd : (oldC.map Prod.fst).Nodup) :
    ((oldC.filter (fun kv => (alistFind kv.1 newC).isNone)).map
        (fun kv => SchemaWarning.removed kv.1)).count
      (SchemaWarning.removed c) =
    if (alistFind c oldC).isSome ∧ alistFind c newC = none then 1 else 0 := by
  rw [List.count, List.countP_map]
  have hpt : List.countP ((fun x => x == SchemaWarning.removed c) ∘
      (fun kv => SchemaWarning.removed kv.1))
      (oldC.filter (fun kv => (alistFind kv.1 newC).isNone)) =
    List.countP (fun kv => kv.1 == c)
      (oldC.filter (fun kv => (alistFind kv.1 newC).isNone)) := by
    apply List.countP_congr
    intro kv _
    by_cases h : kv.1 = c <;> simp [h, Function.comp]
  have hfilternd : (((oldC.filter
      (fun kv => (alistFind kv.1 newC).isNone)).map Prod.fst)).Nodup :=
    hnd.sublist ((List.filter_sublist _).map Prod.fst)
  rw [hpt, countP_key_of_nodup _ _ hfilternd]
  have hiff : c ∈ (oldC.filter
      (fun kv => (alistFind kv.1 newC).isNone)).map Prod.fst ↔
      ((alistFind c oldC).isSome ∧ alistFind c newC = none) := by
    constructor
    · intro hmem
      rw [List.mem_map] at hmem
      obtain ⟨kv, hkvmem, hkv1⟩ := hmem
      rw [List.mem_filter] at hkvmem
      obtain ⟨hkvold, hpred⟩ := hkvmem
      subst hkv1
      constructor
      · rw [alistFind_of_mem_nodup kv.1 kv.2 oldC hnd hkvold]
        rfl
      · rwa [Option.isNone_iff_eq_none] at hpred
    · rintro ⟨hsome, hnone⟩
      obtain ⟨oc, hoc⟩ := Option.isSome_iff_exists.mp hsome
      have hmem := alistFind_some_mem c oldC oc hoc
      rw [List.mem_map]
      refine ⟨(c, oc), ?_, rfl⟩
      rw [List.mem_filter]
      exact ⟨hmem, by simp [hnone]⟩
  exact if_congr hiff rfl rfl

theorem count_removedPart_zero (oldC newC : List (String × SchemaCol))
    (w : SchemaWarning) (hw : ∀ k, w ≠ SchemaWarning.removed k) :
    ((oldC.filter (fun kv => (alistFind kv.1 newC).isNone)).map
        (fun kv => SchemaWarning.removed kv.1)).count w = 0 := by
  rw [List.count_eq_zero]
  intro hmem
  rw [List.mem_map] at hmem
  obtain ⟨kv, _, hkv⟩ := hmem
  exact hw kv.1 hkv.symm

/-- C8: in the warning list of `validate_schema_compatibility`: a column in
the old schema dict but not the new one yields exactly one removed warning;
a common column whose declared type changed yields exactly one type-changed
warning naming the old and new types; a common column going nullable to
non-nullable yields exactly one narrowing warning; these counts hold
simultaneously (all rules reported); and a newly added column is mentioned
by no warning at all. -/
theorem c8_schema_compat_warnings (old_schema new_schema : List SchemaCol)
    (c : String) :
    ((alistFind c (buildColumns old_schema)).isSome →
      alistFind c (buildColumns new_schema) = none →
      (validate_schema_compatibility old_schema new_schema).count
        (SchemaWarning.removed c) = 1) ∧
    (∀ oc nc, alistFind c (buildColumns old_schema) = some oc →
      alistFind c (buildColumns new_schema) = some nc →
      nc.data_type ≠ oc.data_type →
      (validate_schema_compatibility old_schema new_schema).count
        (SchemaWarning.typeChanged c oc.data_type nc.data_type) = 1) ∧
    (∀ oc nc, alistFind c (buildColumns old_schema) = some oc →
      alistFind c (buildColumns new_schema) = some nc →
      oc.is_nullable = true → nc.is_nullable = false →
      (validate_schema_compatibility old_schema new_schema).count
        (SchemaWarning.narrowed c) = 1) ∧
    (alistFind c (buildColumns old_schema) = none →
      ∀ w ∈ validate_schema_compatibility old_schema new_schema,
        warningColumn w ≠ c) := by
  have hndo := buildColumns_keys_nodup old_schema
  have hndn := buildColumns_keys_nodup new_schema
  refine ⟨?_, ?_, ?_, ?_⟩
  · intro hsome hnone
    simp only [validate_schema_compatibility]
    rw [List.count_append, count_removedPart _ _ c hndo,
      count_flatMap_modW_none (buildColumns old_schema) c
        (SchemaWarning.removed c) rfl _ hnone,
      if_pos ⟨hsome, hnone⟩]
  · intro oc nc hold hnew hne
    simp only [validate_schema_compatibility]
    rw [List.count_append,
      count_removedPart_zero _ _ _ (fun k h => SchemaWarning.noConfusion h),
      count_flatMap_modW_some (buildColumns old_schema) c
        (SchemaWarning.typeChanged c oc.data_type nc.data_type) rfl _ hndn nc hnew,
      Nat.zero_add]
    simp only [modWarnings, hold]
    rw [if_neg hne, List.count_append]
    split_ifs with hnarrow <;> simp
  · intro oc nc hold hnew hno hnn
    simp only [validate_schema_compatibility]
    rw [List.count_append,
      count_removedPart_zero _ _ _ (fun k h => SchemaWarning.noConfusion h),
      count_flatMap_modW_some (buildColumns old_schema) c
        (SchemaWarning.narrowed c) rfl _ hndn nc hnew,
      Nat.zero_add]
    simp only [modWarnings, hold]
    rw [List.count_append]
    have hcond : (oc.is_nullable && !nc.is_nullable) = true := by
      rw [hno, hnn]
      rfl
    rw [if_pos hcond]
    split_ifs with htype <;> simp
  · intro hnone w hw
    simp only [validate_schema_compatibility, List.mem_append] at hw
    rcases hw with h | h
    · rw [List.mem_map] at h
      obtain ⟨kv, hkvmem, rfl⟩ := h
      rw [List.mem_filter] at hkvmem
      intro hc
      have hcn := (alistFind_eq_none_iff c (buildColumns old_schema)).mp hnone
      apply hcn
      have hkc : kv.1 = c := hc
      rw [← hkc]
      exact List.mem_map_of_mem Prod.fst hkvmem.1
    · rw [List.mem_flatMap] at h
      obtain ⟨kv, hkvmem, hwmem⟩ := h
      obtain ⟨hcol, _, hsome⟩ := mem_modWarnings _ _ _ hwmem
      intro hc
      have hkc : kv.1 = c := hcol.symm.trans hc
      rw [hkc, hnone] at hsome
      simp at hsome

example : validate_schema_compatibility
    [⟨"a", "int", true⟩, ⟨"b", "int", true⟩, ⟨"c", "int", true⟩]
    [⟨"b", "string", true⟩, ⟨"c", "int", false⟩, ⟨"d", "int", true⟩] =
    [.removed "a", .typeChanged "b" "int" "string", .narrowed "c"] := by
  decide
